import Mathlib

/-!
# NexGen IPTV: playlist parser and command navigation

A shallow embedding of the playlist ingestion and navigation core of
`src/App.jsx`:

* `parseM3U` (lines 140-171), with the three regular expressions it uses;
* the playlist search filter effect (lines 61-72);
* `handleChannelSelect`, `closePlayer`, `goBackToPlaylist` and `handleCommand`
  (lines 192-272).

JavaScript strings are modelled as lists of characters (`Str`).  React state is
an explicit record (`AppState`); an event handler reads the state of the render
it was created in and returns the state after its queued updates are applied.
-/

namespace NexGen

/-! ## Strings -/

/-- A JavaScript string, as the list of its characters. -/
abbrev Str := List Char

/-- The line feed, the separator of `m3uText.split('\n')`. -/
def lineFeed : Char := Char.ofNat 0x0A

/-- The double quote that delimits attribute values. -/
def dquote : Char := Char.ofNat 0x22

/-- ECMAScript *LineTerminator*: LF, CR, LS, PS.  The regular-expression atom `.`
(without the `s` flag) matches every character except these. -/
def isLineTerminator (c : Char) : Bool :=
  c.toNat == 0x0A || c.toNat == 0x0D || c.toNat == 0x2028 || c.toNat == 0x2029

/-- ECMAScript *WhiteSpace*: TAB, VT, FF, SP, NBSP, ZWNBSP and the space
separators (category Zs). -/
def isWhiteSpace (c : Char) : Bool :=
  c.toNat == 0x09 || c.toNat == 0x0B || c.toNat == 0x0C || c.toNat == 0x20 ||
  c.toNat == 0xA0 || c.toNat == 0x1680 || (0x2000 ≤ c.toNat && c.toNat ≤ 0x200A) ||
  c.toNat == 0x202F || c.toNat == 0x205F || c.toNat == 0x3000 || c.toNat == 0xFEFF

/-- The characters removed by `String.prototype.trim`: white space and line
terminators. -/
def isTrimChar (c : Char) : Bool := isWhiteSpace c || isLineTerminator c

/-- `String.prototype.trim`: strips leading and trailing `isTrimChar`
characters. -/
def trim (s : Str) : Str :=
  ((s.dropWhile isTrimChar).reverse.dropWhile isTrimChar).reverse

/-- `s.startsWith(p)`. -/
def startsWith (s p : Str) : Bool := p.isPrefixOf s

/-- `s.includes(t)`: `t` occurs in `s` as a contiguous substring. -/
def includes : Str → Str → Bool
  | [], t => t.isPrefixOf []
  | c :: s, t => t.isPrefixOf (c :: s) || includes s t

/-- `text.split('\n')`: the pieces between line feeds; never the empty list. -/
def splitLines : Str → List Str
  | [] => [[]]
  | c :: s =>
    if c = lineFeed then [] :: splitLines s
    else
      match splitLines s with
      | [] => [[c]]
      | l :: ls => (c :: l) :: ls

/-! ## Regular expressions

`String.prototype.match` with a pattern that has no `g` or `y` flag runs the
pattern at start index 0, 1, 2, ... up to the length of the input and returns
the captures of the first index at which it matches.  `regexSearch` is that
outer loop; the argument is the matcher anchored at the current index, which
receives the remaining input. -/

/-- The leftmost-match loop of `RegExp.prototype.exec`. -/
def regexSearch {α : Type} (matchAt : Str → Option α) : Str → Option α
  | [] => matchAt []
  | c :: s =>
    match matchAt (c :: s) with
    | some r => some r
    | none => regexSearch matchAt s

/-- The pattern `/,(.*)$/` anchored at the head of the remaining input: a comma,
then the greedy run `.*` of characters that are not line terminators, then `$`,
which (no `m` flag) holds only at the end of the input.  Giving characters of the
run back cannot help `$`, so the attempt succeeds exactly when the greedy run
reaches the end.  The result is capture group 1. -/
def nameMatchAt : Str → Option Str
  | [] => none
  | c :: rest =>
    if c = ',' then
      match rest.dropWhile (fun d => !isLineTerminator d) with
      | [] => some (rest.takeWhile (fun d => !isLineTerminator d))
      | _ :: _ => none
    else none

/-- The pattern `key([^"]*)"` anchored at the head of the remaining input, where
`key` is the literal text up to and including the opening quote: the greedy run
of characters other than the double quote must be followed by a double quote.
The result is capture group 1. -/
def attrMatchAt (key : Str) (s : Str) : Option Str :=
  if key.isPrefixOf s then
    match (s.drop key.length).dropWhile (fun d => d != dquote) with
    | [] => none
    | _ :: _ => some ((s.drop key.length).takeWhile (fun d => d != dquote))
  else none

/-- The literal `tvg-logo="`. -/
def tvgLogoKey : Str := "tvg-logo=".toList ++ [dquote]

/-- The literal `group-title="`. -/
def groupTitleKey : Str := "group-title=".toList ++ [dquote]

/-- The marker `#EXTINF:` of a metadata line. -/
def extinfMarker : Str := "#EXTINF:".toList

/-! ## parseM3U -/

/-- One element of the array returned by `parseM3U`. -/
structure Channel where
  id : Nat
  name : Str
  url : Str
  logo : Option Str
  category : Str
deriving DecidableEq, Repr

/-- The `name` computed at lines 151-152:
`nameMatch ? nameMatch[1].trim() : 'Unknown Channel'`. -/
def channelName (infoLine : Str) : Str :=
  match regexSearch nameMatchAt infoLine with
  | some g => trim g
  | none => "Unknown Channel".toList

/-- The `logo` computed at lines 155 and 162:
`tvgLogoMatch ? tvgLogoMatch[1] : null`. -/
def channelLogo (infoLine : Str) : Option Str :=
  regexSearch (attrMatchAt tvgLogoKey) infoLine

/-- The `category` computed at lines 156 and 163:
`groupTitleMatch ? groupTitleMatch[1] : 'Uncategorized'`. -/
def channelCategory (infoLine : Str) : Str :=
  match regexSearch (attrMatchAt groupTitleKey) infoLine with
  | some g => g
  | none => "Uncategorized".toList

/-- The test of line 149 on a line that exists:
`urlLine && urlLine.trim() && !urlLine.startsWith('#')`
(the empty string is falsy). -/
def usableUrlLine (urlLine : Str) : Bool :=
  urlLine != [] && trim urlLine != [] && !startsWith urlLine ['#']

/-- The object pushed at lines 158-164, given the number of records already
emitted. -/
def mkChannel (emitted : Nat) (infoLine urlLine : Str) : Channel :=
  { id := emitted + 1
    name := channelName infoLine
    url := trim urlLine
    logo := channelLogo infoLine
    category := channelCategory infoLine }

/-- The `for` loop of lines 144-168.  The first argument is the part of `lines`
from index `i` on, the second the `channels` array so far.  On a metadata line
the following line (if there is one: otherwise `lines[i + 1]` is `undefined`,
which is falsy) is tested and possibly emitted, and the `i++` of line 166 is
executed whatever the outcome of the test, so the following line is never
examined as a metadata line itself. -/
def parseLoop : List Str → List Channel → List Channel
  | [], channels => channels
  | line :: rest, channels =>
    if startsWith line extinfMarker then
      match rest with
      | [] => channels
      | urlLine :: rest' =>
        if usableUrlLine urlLine then
          parseLoop rest' (channels ++ [mkChannel channels.length line urlLine])
        else
          parseLoop rest' channels
    else
      parseLoop rest channels

/-- The function `parseM3U` of lines 140-171. -/
def parseM3U (m3uText : Str) : List Channel :=
  parseLoop (splitLines m3uText) []

/-! ## Application state -/

/-- The three values of the `view` state. -/
inductive View where
  | countries
  | playlist
  | player
deriving DecidableEq, Repr

/-- The part of the component state read or written by the playlist filter and
the command handler.  `playerRef` stands for `playerRef.current`: `none` is
`null`, `some b` is a video.js player that is playing (`b = true`) or paused. -/
structure AppState where
  playlistChannels : List Channel
  filteredPlaylistChannels : List Channel
  selectedChannel : Option Channel
  playlistSearchTerm : Str
  command : Str
  currentChannelIndex : Int
  view : View
  playerRef : Option Bool
deriving DecidableEq, Repr

/-- `String.prototype.toLowerCase` restricted to the Basic Latin block, where the
Unicode lower-case mapping only moves `A`-`Z`.  The definitions below take the
lower-casing function as a parameter; this one is used to evaluate them. -/
def toLowerCaseAscii (s : Str) : Str := s.map Char.toLower

/-! ## Playlist search filter -/

/-- The callback of `playlistChannels.filter` at lines 64-67. -/
def matchesSearch (toLowerCase : Str → Str) (lowercasedSearchTerm : Str)
    (channel : Channel) : Bool :=
  includes (toLowerCase channel.name) lowercasedSearchTerm ||
  includes (toLowerCase channel.category) lowercasedSearchTerm

/-- The effect of lines 61-72, run when `playlistSearchTerm`, `playlistChannels`
or `view` changed.  The empty string is falsy. -/
def playlistFilterEffect (toLowerCase : Str → Str) (s : AppState) : AppState :=
  if s.playlistSearchTerm ≠ [] ∧ s.view = View.playlist then
    { s with
      filteredPlaylistChannels :=
        s.playlistChannels.filter (matchesSearch toLowerCase (toLowerCase s.playlistSearchTerm)) }
  else if s.view = View.playlist then
    { s with filteredPlaylistChannels := s.playlistChannels }
  else s

/-! ## Selection and commands -/

/-- `Array.prototype.findIndex`: the first index whose element satisfies the
predicate, or `-1`. -/
def findIndex (p : Channel → Bool) (l : List Channel) : Int :=
  if l.findIdx p < l.length then (l.findIdx p : Int) else -1

/-- Array element access `arr[j]` with an integral number `j`: `undefined`
(`none`) outside `0 .. length - 1`.  The number `-0` is the key `"0"`; it is the
integer `0` here. -/
def jsIndex (l : List Channel) (j : Int) : Option Channel :=
  if 0 ≤ j then l[j.toNat]? else none

/-- The function `handleChannelSelect` of lines 192-197, called with the state
`s` of the current render and writing into `out`.  The argument is `none` when
the caller passes `undefined`; then the callback `c => c.url === channel.url`
throws a TypeError as soon as it is called, that is when the list is non-empty.
The result `none` is that uncaught exception. -/
def handleChannelSelect (s : AppState) (channel : Option Channel) (out : AppState) :
    Option AppState :=
  match channel with
  | some ch =>
    some { out with
      selectedChannel := some ch
      view := View.player
      currentChannelIndex := findIndex (fun c => c.url == ch.url) s.filteredPlaylistChannels }
  | none =>
    if s.filteredPlaylistChannels = [] then
      some { out with selectedChannel := none, view := View.player, currentChannelIndex := -1 }
    else none

/-- The function `closePlayer` of lines 199-211. -/
def closePlayer (out : AppState) : AppState :=
  { out with
    playerRef := none
    selectedChannel := none
    currentChannelIndex := -1
    view := View.playlist }

/-- The function `goBackToPlaylist` of lines 221-223. -/
def goBackToPlaylist (out : AppState) : AppState := closePlayer out

/-- The decimal digits `0`-`9` read by `parseInt` with radix 10. -/
def isDecimalDigit (c : Char) : Bool := 48 ≤ c.toNat && c.toNat ≤ 57

/-- The value of a run of decimal digits. -/
def digitsValue (ds : Str) : Nat :=
  ds.foldl (fun acc d => 10 * acc + (d.toNat - 48)) 0

/-- `parseInt(text, 10)`: leading white space is skipped, an optional sign is
read, then the longest run of decimal digits; whatever follows is ignored.  With
no digit the result is `NaN` (`none`).  The result is kept exact; the rounding of
a huge value to a double does not change its comparison with an array length. -/
def parseInt10 (text : Str) : Option Int :=
  let t := text.dropWhile isTrimChar
  let body := match t with
    | [] => []
    | c :: r => if c = '-' ∨ c = '+' then r else c :: r
  let negative := match t with
    | [] => false
    | c :: _ => decide (c = '-')
  let ds := body.takeWhile isDecimalDigit
  if ds = [] then none
  else if negative then some (-(digitsValue ds : Int)) else some (digitsValue ds : Int)

/-- The `nextIndex` of line 235.  JavaScript `%` is the remainder of truncated
division, `Int.tmod` (a zero result of either sign is the integer `0`). -/
def nextIndex (currentChannelIndex totalChannels : Int) : Int :=
  (currentChannelIndex + 1).tmod totalChannels

/-- The `prevIndex` of line 243. -/
def prevIndex (currentChannelIndex totalChannels : Int) : Int :=
  (currentChannelIndex - 1 + totalChannels).tmod totalChannels

/-- The function `handleCommand` of lines 225-272; `key` is `e.key`.  The state
`s` is the one of the render that created the handler: every read goes to `s`,
every `set...` call writes into the result. -/
def handleCommand (toLowerCase : Str → Str) (key : Str) (s : AppState) : Option AppState :=
  if key = "Enter".toList then
    let cmd := toLowerCase (trim s.command)
    let out := { s with command := [] }
    let totalChannels : Int := s.filteredPlaylistChannels.length
    if cmd = "next".toList then
      if totalChannels > 0 then
        handleChannelSelect s
          (jsIndex s.filteredPlaylistChannels (nextIndex s.currentChannelIndex totalChannels)) out
      else some out
    else if cmd = "prev".toList ∨ cmd = "previous".toList then
      if totalChannels > 0 then
        handleChannelSelect s
          (jsIndex s.filteredPlaylistChannels (prevIndex s.currentChannelIndex totalChannels)) out
      else some out
    else if cmd = "play".toList then
      match s.playerRef with
      | some _ => some { out with playerRef := some true }
      | none => some out
    else if cmd = "pause".toList then
      match s.playerRef with
      | some _ => some { out with playerRef := some false }
      | none => some out
    else if cmd = "stop".toList then
      some (closePlayer out)
    else if cmd = "back".toList then
      some (goBackToPlaylist out)
    else
      match parseInt10 cmd with
      | some channelIndex =>
        if channelIndex > 0 ∧ channelIndex ≤ totalChannels then
          handleChannelSelect s (jsIndex s.filteredPlaylistChannels (channelIndex - 1)) out
        else some out
      | none => some out
  else some s

/-- Submitting the text `text`: the command buffer holds it and Enter is
pressed. -/
def submit (toLowerCase : Str → Str) (text : Str) (s : AppState) : Option AppState :=
  handleCommand toLowerCase "Enter".toList { s with command := text }

/-- Submitting the same text `k` times in succession, each time on the state the
previous submission left. -/
def submitTimes (toLowerCase : Str → Str) (text : Str) : Nat → AppState → Option AppState
  | 0, s => some s
  | k + 1, s =>
    match submit toLowerCase text s with
    | some s' => submitTimes toLowerCase text k s'
    | none => none

/-! ## The wording of the specification

Predicates and functions that restate the specification's sentences, to compare
the definitions above with. -/

/-- An attribute occurrence: in `line`, right after the prefix `pre`, stands the
text `key` (which ends in the opening double quote), then the value `v`, which
contains no double quote, then the closing double quote. -/
def AttrAt (key line pre v : Str) : Prop :=
  ∃ post, line = pre ++ (key ++ (v ++ dquote :: post)) ∧ dquote ∉ v

/-- The line has an attribute `key...` somewhere. -/
def HasAttr (key line : Str) : Prop := ∃ pre v, AttrAt key line pre v

/-- The value `v` is the text between the double quotes of the first attribute
`key...` of the line: no occurrence starts further left. -/
def FirstAttr (key line v : Str) : Prop :=
  ∃ pre, AttrAt key line pre v ∧ ∀ pre' v', AttrAt key line pre' v' → pre.length ≤ pre'.length

/-- The display name as the specification words it: the text after the last comma
of the metadata line, trimmed; the fallback literal when the line has no comma. -/
def nameAfterLastComma (infoLine : Str) : Str :=
  if ',' ∈ infoLine then trim (infoLine.reverse.takeWhile (fun d => d != ',')).reverse
  else "Unknown Channel".toList

/-- The numeric commands as the specification words them: the text consists only
of decimal digits and its value `k` satisfies `1 ≤ k ≤ n`. -/
def isChannelNumeral (n : Nat) (cmd : Str) : Bool :=
  cmd != [] && cmd.all isDecimalDigit && decide (1 ≤ digitsValue cmd) && decide (digitsValue cmd ≤ n)

/-- The literal commands of the `switch` of lines 232-263. -/
def commandWords : List Str :=
  ["next".toList, "prev".toList, "previous".toList, "play".toList, "pause".toList,
    "stop".toList, "back".toList]

/-! ## Sample data for the concrete statements -/

/-- A channel record with the given `id`, `name` and `url`, no logo and the default
category. -/
def sampleChannel (id : Nat) (name url : String) : Channel :=
  { id := id, name := name.toList, url := url.toList, logo := none,
    category := "Uncategorized".toList }

/-- The player view over the list `l`, unfiltered, with the given current index and
an empty command buffer. -/
def sampleState (l : List Channel) (currentChannelIndex : Int) : AppState :=
  { playlistChannels := l, filteredPlaylistChannels := l, selectedChannel := none,
    playlistSearchTerm := [], command := [], currentChannelIndex := currentChannelIndex,
    view := View.player, playerRef := none }

/-- Three channels, the first two with the same url. -/
def duplicateUrlList : List Channel :=
  [sampleChannel 1 "a" "http://u", sampleChannel 2 "b" "http://u", sampleChannel 3 "c" "http://v"]

/-- Three channels with pairwise distinct urls. -/
def distinctUrlList : List Channel :=
  [sampleChannel 1 "a" "http://u", sampleChannel 2 "b" "http://v", sampleChannel 3 "c" "http://w"]

/-- Three parsed channels: one in the category `sport`, one unrelated, one named
`Sports One`. -/
def sportSampleList : List Channel :=
  [{ id := 1, name := "Arena".toList, url := "http://a".toList, logo := none,
      category := "sport".toList },
    { id := 2, name := "News 24".toList, url := "http://b".toList, logo := none,
      category := "News".toList },
    { id := 3, name := "Sports One".toList, url := "http://c".toList, logo := none,
      category := "Uncategorized".toList }]

/-- The playlist view over `sportSampleList` with the search term `SPORT`, before
the filter effect has run. -/
def sportSampleState : AppState :=
  { playlistChannels := sportSampleList, filteredPlaylistChannels := sportSampleList,
    selectedChannel := none, playlistSearchTerm := "SPORT".toList, command := [],
    currentChannelIndex := -1, view := View.playlist, playerRef := none }

/-! ## The parser: where records come from -/

/-- Every record of `parseLoop lines channels` is one of `channels` or was built from
two adjacent lines of `lines`: a metadata line and a usable line right after it. -/
theorem mem_parseLoop (lines : List Str) (channels : List Channel) (c : Channel)
    (h : c ∈ parseLoop lines channels) :
    c ∈ channels ∨ ∃ pre info urlLine post k,
      lines = pre ++ info :: urlLine :: post ∧ startsWith info extinfMarker = true ∧
      usableUrlLine urlLine = true ∧ c = mkChannel k info urlLine := by
  induction lines, channels using parseLoop.induct with
  | case1 channels => left; simpa [parseLoop] using h
  | case2 line channels hs => left; simpa [parseLoop, hs] using h
  | case3 line channels hs urlLine rest hu ih =>
    simp only [parseLoop, hs, hu, if_true] at h
    rcases ih h with h1 | ⟨pre, info, u, post, k, h1, h2, h3, h4⟩
    · rcases List.mem_append.mp h1 with h1 | h1
      · exact Or.inl h1
      · right
        refine ⟨[], line, urlLine, rest, channels.length, rfl, hs, hu, ?_⟩
        simpa using h1
    · right
      exact ⟨line :: urlLine :: pre, info, u, post, k, by simp [h1], h2, h3, h4⟩
  | case4 line channels hs urlLine rest hu ih =>
    simp only [parseLoop, hs, hu, if_true] at h
    simp only [Bool.false_eq_true, if_false] at h
    rcases ih h with h1 | ⟨pre, info, u, post, k, h1, h2, h3, h4⟩
    · exact Or.inl h1
    · right
      exact ⟨line :: urlLine :: pre, info, u, post, k, by simp [h1], h2, h3, h4⟩
  | case5 line rest channels hs ih =>
    rw [parseLoop.eq_def] at h
    simp only [hs, Bool.false_eq_true, if_false] at h
    rcases ih h with h1 | ⟨pre, info, u, post, k, h1, h2, h3, h4⟩
    · exact Or.inl h1
    · right
      exact ⟨line :: pre, info, u, post, k, by simp [h1], h2, h3, h4⟩

/-- Every record of `parseM3U text` was built from a metadata line of the text and
the usable line right after it. -/
theorem mem_parseM3U (text : Str) (c : Channel) (h : c ∈ parseM3U text) :
    ∃ pre info urlLine post k,
      splitLines text = pre ++ info :: urlLine :: post ∧
      startsWith info extinfMarker = true ∧
      usableUrlLine urlLine = true ∧ c = mkChannel k info urlLine := by
  rcases mem_parseLoop _ _ _ h with h1 | h1
  · simp at h1
  · exact h1

/-- C1, the code as written: on the two consecutive metadata lines of the
specification's example the parser returns no record at all.  The `i++` of line
166 runs although the line after `OnlyName` was not taken as a URL, so the
`NextOne` line is stepped over and `http://y` is then read as an ordinary
line.  Without the first line the same two lines give the record. -/
theorem parseM3U_consecutive_metadata :
    parseM3U "#EXTINF:-1,OnlyName\n#EXTINF:-1,NextOne\nhttp://y".toList = [] ∧
    parseM3U "#EXTINF:-1,NextOne\nhttp://y".toList =
      [⟨1, "NextOne".toList, "http://y".toList, none, "Uncategorized".toList⟩] := by
  decide

/-- C2: every record returned by `parseM3U` has a non-empty `url`, and the record
was built from a line starting with `#EXTINF:` and the line right after it, which
exists, is non-empty after trimming, does not start with `#`, and whose trimmed
text is the `url`. -/
theorem parseM3U_url_of_usable_line (text : Str) (c : Channel) (h : c ∈ parseM3U text) :
    c.url ≠ [] ∧
    ∃ pre info urlLine post k,
      splitLines text = pre ++ info :: urlLine :: post ∧
      startsWith info extinfMarker = true ∧
      trim urlLine ≠ [] ∧ startsWith urlLine ['#'] = false ∧
      c = mkChannel k info urlLine ∧ c.url = trim urlLine := by
  obtain ⟨pre, info, urlLine, post, k, h1, h2, h3, h4⟩ := mem_parseM3U text c h
  have hu : trim urlLine ≠ [] ∧ startsWith urlLine ['#'] = false := by
    simp only [usableUrlLine, Bool.and_eq_true, bne_iff_ne, Bool.not_eq_true'] at h3
    exact ⟨h3.1.2, h3.2⟩
  have hurl : c.url = trim urlLine := by rw [h4]; rfl
  exact ⟨by rw [hurl]; exact hu.1, pre, info, urlLine, post, k, h1, h2, hu.1, hu.2, h4, hurl⟩

/-- C2 at a concrete playlist: the metadata line `#EXTINF:-1,B` is followed by a
comment line and emits nothing; the record of `#EXTINF:-1,A` has the trimmed
second line as its `url`. -/
theorem parseM3U_url_of_usable_line_witness :
    (⟨1, "A".toList, "http://x".toList, none, "Uncategorized".toList⟩ : Channel) ∈
        parseM3U "#EXTINF:-1,A\n http://x \n#EXTINF:-1,B\n#comment".toList ∧
    ((⟨1, "A".toList, "http://x".toList, none, "Uncategorized".toList⟩ : Channel).url ≠ [] ∧
      ∃ pre info urlLine post k,
        splitLines "#EXTINF:-1,A\n http://x \n#EXTINF:-1,B\n#comment".toList =
          pre ++ info :: urlLine :: post ∧
        startsWith info extinfMarker = true ∧
        trim urlLine ≠ [] ∧ startsWith urlLine ['#'] = false ∧
        (⟨1, "A".toList, "http://x".toList, none, "Uncategorized".toList⟩ : Channel) =
          mkChannel k info urlLine ∧
        (⟨1, "A".toList, "http://x".toList, none, "Uncategorized".toList⟩ : Channel).url =
          trim urlLine) :=
  ⟨by decide, parseM3U_url_of_usable_line _ _ (by decide)⟩


/-! ## Regular expressions: what the matchers compute -/

/-- A run `v` of characters satisfying `p`, followed by `x` that does not, is split
by `takeWhile` and `dropWhile` at `x`. -/
theorem takeWhile_dropWhile_of_run (p : Char → Bool) (v : Str) (x : Char) (post : Str)
    (hv : ∀ d ∈ v, p d = true) (hx : p x = false) :
    (v ++ x :: post).takeWhile p = v ∧ (v ++ x :: post).dropWhile p = x :: post := by
  induction v with
  | nil => simp [List.takeWhile, List.dropWhile, hx]
  | cons a v ih =>
    have ha : p a = true := hv a (List.mem_cons_self _ _)
    have ih' := ih (fun d hd => hv d (List.mem_cons_of_mem _ hd))
    simp [List.takeWhile, List.dropWhile, ha, ih'.1, ih'.2]

/-- When `dropWhile` stops at `x`, the input is the run `takeWhile` followed by `x`
and the rest, and `x` fails the predicate. -/
theorem run_of_dropWhile (p : Char → Bool) (l : Str) (x : Char) (post : Str)
    (h : l.dropWhile p = x :: post) :
    l = l.takeWhile p ++ x :: post ∧ (∀ d ∈ l.takeWhile p, p d = true) ∧ p x = false := by
  induction l with
  | nil => simp at h
  | cons a l ih =>
    by_cases ha : p a = true
    · simp only [List.dropWhile, ha] at h
      obtain ⟨h1, h2, h3⟩ := ih h
      refine ⟨?_, ?_, h3⟩
      · simp only [List.takeWhile, ha, List.cons_append]
        exact congrArg _ h1
      · intro d hd
        simp only [List.takeWhile, ha, List.mem_cons] at hd
        rcases hd with rfl | hd
        · exact ha
        · exact h2 d hd
    · have ha' : p a = false := by simpa using ha
      simp only [List.dropWhile, ha'] at h
      simp only [List.takeWhile, ha']
      injection h with h1 h2
      subst h1 h2
      exact ⟨rfl, by simp, ha'⟩

/-- The leftmost-match loop returns `r` exactly when the anchored matcher returns
`r` at some start position and fails at every earlier one. -/
theorem regexSearch_eq_some {α : Type} (f : Str → Option α) (s : Str) (r : α) :
    regexSearch f s = some r ↔
      ∃ pre suf, s = pre ++ suf ∧ f suf = some r ∧
        ∀ pre' suf', s = pre' ++ suf' → pre'.length < pre.length → f suf' = none := by
  induction s with
  | nil =>
    simp only [regexSearch]
    constructor
    · intro h
      exact ⟨[], [], rfl, h, fun _ _ _ hl => absurd hl (Nat.not_lt_zero _)⟩
    · rintro ⟨pre, suf, h1, h2, -⟩
      have := List.append_eq_nil.mp h1.symm
      rw [this.2] at h2
      exact h2
  | cons c t ih =>
    cases hf : f (c :: t) with
    | some r0 =>
      simp only [regexSearch, hf]
      constructor
      · intro h
        exact ⟨[], c :: t, rfl, by rw [hf, h], fun _ _ _ hl => absurd hl (Nat.not_lt_zero _)⟩
      · rintro ⟨pre, suf, h1, h2, h3⟩
        cases pre with
        | nil =>
          simp only [List.nil_append] at h1
          rw [← h1, hf] at h2
          exact h2
        | cons a pre1 =>
          have := h3 [] (c :: t) rfl (by simp)
          rw [hf] at this
          exact absurd this (by simp)
    | none =>
      simp only [regexSearch, hf]
      rw [ih]
      constructor
      · rintro ⟨pre, suf, h1, h2, h3⟩
        refine ⟨c :: pre, suf, by simp [h1], h2, ?_⟩
        intro pre' suf' h4 h5
        cases pre' with
        | nil =>
          simp only [List.nil_append] at h4
          rw [← h4]; exact hf
        | cons a p1 =>
          simp only [List.cons_append, List.cons.injEq] at h4
          exact h3 p1 suf' h4.2 (by simpa using h5)
      · rintro ⟨pre, suf, h1, h2, h3⟩
        cases pre with
        | nil =>
          simp only [List.nil_append] at h1
          rw [← h1, hf] at h2
          exact absurd h2 (by simp)
        | cons a pre1 =>
          simp only [List.cons_append, List.cons.injEq] at h1
          refine ⟨pre1, suf, h1.2, h2, ?_⟩
          intro pre' suf' h4 h5
          exact h3 (c :: pre') suf' (by simp [h4]) (by simpa using h5)

/-- The leftmost-match loop fails exactly when the anchored matcher fails at
every start position. -/
theorem regexSearch_eq_none {α : Type} (f : Str → Option α) (s : Str) :
    regexSearch f s = none ↔ ∀ pre suf, s = pre ++ suf → f suf = none := by
  induction s with
  | nil =>
    simp only [regexSearch]
    constructor
    · intro h pre suf h1
      have := List.append_eq_nil.mp h1.symm
      rw [this.2]; exact h
    · intro h
      exact h [] [] rfl
  | cons c t ih =>
    cases hf : f (c :: t) with
    | some r0 =>
      simp only [regexSearch, hf]
      constructor
      · intro h; exact absurd h (by simp)
      · intro h
        have := h [] (c :: t) rfl
        rw [hf] at this
        exact absurd this (by simp)
    | none =>
      simp only [regexSearch, hf]
      rw [ih]
      constructor
      · intro h pre suf h1
        cases pre with
        | nil =>
          simp only [List.nil_append] at h1
          rw [← h1]; exact hf
        | cons a p1 =>
          simp only [List.cons_append, List.cons.injEq] at h1
          exact h p1 suf h1.2
      · intro h pre suf h1
        exact h (c :: pre) suf (by simp [h1])

/-- The anchored attribute pattern returns `v` exactly when the remaining input
is `key`, then `v` without a double quote, then a double quote. -/
theorem attrMatchAt_eq_some (key s v : Str) :
    attrMatchAt key s = some v ↔ ∃ post, s = key ++ v ++ dquote :: post ∧ dquote ∉ v := by
  unfold attrMatchAt
  constructor
  · intro h
    split at h
    · rename_i hk
      obtain ⟨rest, rfl⟩ := List.isPrefixOf_iff_prefix.mp hk
      simp only [List.drop_left] at h
      split at h
      · exact absurd h (by simp)
      · rename_i x post hd
        obtain ⟨h1, h2, h3⟩ := run_of_dropWhile _ _ _ _ hd
        have hx : x = dquote := by simpa using h3
        subst hx
        injection h with h
        subst h
        refine ⟨post, ?_, ?_⟩
        · rw [List.append_assoc]; exact congrArg _ h1
        · intro hm
          have := h2 _ hm
          simp at this
    · exact absurd h (by simp)
  · rintro ⟨post, rfl, hv⟩
    have hk : key.isPrefixOf (key ++ (v ++ dquote :: post)) = true :=
      List.isPrefixOf_iff_prefix.mpr ⟨v ++ dquote :: post, rfl⟩
    have hrun := takeWhile_dropWhile_of_run (fun d => d != dquote) v dquote post
      (fun d hd => by
        have : d ≠ dquote := fun e => hv (e ▸ hd)
        simpa using this) (by simp)
    simp only [hk, if_true, List.append_assoc, List.drop_left, hrun.1, hrun.2]

/-- The attribute search returns `v` exactly when `v` is the value of the first
attribute `key...` of the line. -/
theorem regexSearch_attr_eq_some (key line v : Str) :
    regexSearch (attrMatchAt key) line = some v ↔ FirstAttr key line v := by
  rw [regexSearch_eq_some]
  constructor
  · rintro ⟨pre, suf, h1, h2, h3⟩
    obtain ⟨post, h4, h5⟩ := (attrMatchAt_eq_some key suf v).mp h2
    refine ⟨pre, ⟨post, by rw [h1, h4]; simp, h5⟩, ?_⟩
    rintro pre' v' ⟨post', h6, h7⟩
    by_contra hlt
    have hn := h3 pre' _ h6 (Nat.lt_of_not_le hlt)
    have hs : attrMatchAt key (key ++ (v' ++ dquote :: post')) = some v' :=
      (attrMatchAt_eq_some key _ v').mpr ⟨post', by simp, h7⟩
    rw [hs] at hn
    exact absurd hn (by simp)
  · rintro ⟨pre, ⟨post, h1, h2⟩, h3⟩
    refine ⟨pre, key ++ (v ++ dquote :: post), h1,
      (attrMatchAt_eq_some key _ v).mpr ⟨post, by simp, h2⟩, ?_⟩
    intro pre' suf' h4 h5
    cases hf : attrMatchAt key suf' with
    | none => rfl
    | some v' =>
      obtain ⟨post', h6, h7⟩ := (attrMatchAt_eq_some key suf' v').mp hf
      have := h3 pre' v' ⟨post', by rw [h4, h6]; simp, h7⟩
      omega

/-- The attribute search fails exactly when the line has no attribute `key...`. -/
theorem regexSearch_attr_eq_none (key line : Str) :
    regexSearch (attrMatchAt key) line = none ↔ ¬ HasAttr key line := by
  rw [regexSearch_eq_none]
  constructor
  · rintro h ⟨pre, v, post, h1, h2⟩
    have hn := h pre _ h1
    have hs : attrMatchAt key (key ++ (v ++ dquote :: post)) = some v :=
      (attrMatchAt_eq_some key _ v).mpr ⟨post, by simp, h2⟩
    rw [hs] at hn
    exact absurd hn (by simp)
  · intro h pre suf h1
    cases hf : attrMatchAt key suf with
    | none => rfl
    | some v =>
      obtain ⟨post, h6, h7⟩ := (attrMatchAt_eq_some key suf v).mp hf
      exact absurd ⟨pre, v, post, by rw [h1, h6]; simp, h7⟩ h

/-- The name search on a line whose first comma is followed by no line
terminator returns everything after that comma. -/
theorem regexSearch_name_first_comma (before after : Str) (hb : ',' ∉ before)
    (ha : ∀ d ∈ after, isLineTerminator d = false) :
    regexSearch nameMatchAt (before ++ ',' :: after) = some after := by
  have hdrop : after.dropWhile (fun d => !isLineTerminator d) = [] := by
    rw [List.dropWhile_eq_nil_iff]
    intro d hd
    simp [ha d hd]
  have htake : after.takeWhile (fun d => !isLineTerminator d) = after := by
    rw [List.takeWhile_eq_self_iff]
    intro d hd
    simp [ha d hd]
  induction before with
  | nil => simp [regexSearch, nameMatchAt, hdrop, htake]
  | cons b bs ih =>
    have hb1 : b ≠ ',' := fun e => hb (by simp [e])
    have hb2 : ',' ∉ bs := fun e => hb (List.mem_cons_of_mem _ e)
    simp [regexSearch, nameMatchAt, hb1, ih hb2]

/-- The name search on a line without a comma fails. -/
theorem regexSearch_name_no_comma (line : Str) (h : ',' ∉ line) :
    regexSearch nameMatchAt line = none := by
  induction line with
  | nil => rfl
  | cons b bs ih =>
    have hb1 : b ≠ ',' := fun e => h (by simp [e])
    have hb2 : ',' ∉ bs := fun e => h (List.mem_cons_of_mem _ e)
    simp [regexSearch, nameMatchAt, hb1, ih hb2]

/-- C7, against the claim: with two commas on the metadata line the record's name
is the text after the first comma (`News, Sports`), not after the last
(`Sports`); and on a metadata line that ends in a carriage return the name is the
fallback literal although the line has a comma. -/
theorem parseM3U_name_not_after_last_comma :
    (parseM3U "#EXTINF:-1,News, Sports\nhttp://x".toList).map Channel.name
        = ["News, Sports".toList] ∧
    nameAfterLastComma "#EXTINF:-1,News, Sports".toList = "Sports".toList ∧
    (parseM3U "#EXTINF:-1,News\r\nhttp://x".toList).map Channel.name
        = ["Unknown Channel".toList] ∧
    nameAfterLastComma "#EXTINF:-1,News\r".toList = "News".toList ∧
    ¬ (∀ (text : Str) (pre : List Str) (info urlLine : Str) (post : List Str) (k : Nat),
        splitLines text = pre ++ info :: urlLine :: post →
        mkChannel k info urlLine ∈ parseM3U text →
        (mkChannel k info urlLine).name = nameAfterLastComma info) := by
  refine ⟨by decide, by decide, by decide, by decide, ?_⟩
  intro h
  have := h "#EXTINF:-1,News, Sports\nhttp://x".toList [] "#EXTINF:-1,News, Sports".toList
    "http://x".toList [] 0 (by decide) (by decide)
  revert this
  decide

/-- C7, amended: for every record of `parseM3U` there is its metadata line `info`
(followed by the line that gave the `url`) such that the name is the trimmed text
after the first comma of `info` whenever no line terminator follows that comma,
and is `Unknown Channel` when `info` has no comma. -/
theorem parseM3U_name_after_first_comma (text : Str) (c : Channel) (h : c ∈ parseM3U text) :
    ∃ pre info urlLine post k,
      splitLines text = pre ++ info :: urlLine :: post ∧
      startsWith info extinfMarker = true ∧ usableUrlLine urlLine = true ∧
      c = mkChannel k info urlLine ∧
      (∀ before after, info = before ++ ',' :: after → ',' ∉ before →
        (∀ d ∈ after, isLineTerminator d = false) → c.name = trim after) ∧
      (',' ∉ info → c.name = "Unknown Channel".toList) := by
  obtain ⟨pre, info, urlLine, post, k, h1, h2, h3, h4⟩ := mem_parseM3U text c h
  refine ⟨pre, info, urlLine, post, k, h1, h2, h3, h4, ?_, ?_⟩
  · intro before after hi hb ha
    rw [h4]
    show channelName info = trim after
    rw [channelName, hi, regexSearch_name_first_comma before after hb ha]
  · intro hn
    rw [h4]
    show channelName info = _
    rw [channelName, regexSearch_name_no_comma info hn]

/-- C7 amended, at a concrete playlist whose metadata line has two commas. -/
theorem parseM3U_name_after_first_comma_witness :
    (⟨1, "News, Sports".toList, "http://x".toList, none, "Uncategorized".toList⟩ : Channel) ∈
        parseM3U "#EXTINF:-1,News, Sports\nhttp://x".toList ∧
    ∃ pre info urlLine post k,
      splitLines "#EXTINF:-1,News, Sports\nhttp://x".toList = pre ++ info :: urlLine :: post ∧
      startsWith info extinfMarker = true ∧ usableUrlLine urlLine = true ∧
      (⟨1, "News, Sports".toList, "http://x".toList, none, "Uncategorized".toList⟩ : Channel)
        = mkChannel k info urlLine ∧
      (∀ before after, info = before ++ ',' :: after → ',' ∉ before →
        (∀ d ∈ after, isLineTerminator d = false) →
        (⟨1, "News, Sports".toList, "http://x".toList, none, "Uncategorized".toList⟩ : Channel).name
          = trim after) ∧
      (',' ∉ info →
        (⟨1, "News, Sports".toList, "http://x".toList, none, "Uncategorized".toList⟩ : Channel).name
          = "Unknown Channel".toList) :=
  ⟨by decide, parseM3U_name_after_first_comma _ _ (by decide)⟩

/-- C10: for every record of `parseM3U` there is its metadata line `info` such
that `logo` is the value of the first `tvg-logo` attribute of `info`, or null when
`info` has none, and `category` is the value of the first `group-title`
attribute, or `Uncategorized` when `info` has none; and the specification's
example parses to the one record it names. -/
theorem parseM3U_logo_category (text : Str) (c : Channel) (h : c ∈ parseM3U text) :
    (∃ pre info urlLine post k,
      splitLines text = pre ++ info :: urlLine :: post ∧
      startsWith info extinfMarker = true ∧ usableUrlLine urlLine = true ∧
      c = mkChannel k info urlLine ∧
      (∀ v, c.logo = some v ↔ FirstAttr tvgLogoKey info v) ∧
      (c.logo = none ↔ ¬ HasAttr tvgLogoKey info) ∧
      (∀ v, FirstAttr groupTitleKey info v → c.category = v) ∧
      (¬ HasAttr groupTitleKey info → c.category = "Uncategorized".toList)) ∧
    parseM3U "#EXTINF:-1 tvg-logo=\"L\" group-title=\"G\",Name\nhttp://x".toList =
      [⟨1, "Name".toList, "http://x".toList, some "L".toList, "G".toList⟩] := by
  refine ⟨?_, by decide⟩
  obtain ⟨pre, info, urlLine, post, k, h1, h2, h3, h4⟩ := mem_parseM3U text c h
  refine ⟨pre, info, urlLine, post, k, h1, h2, h3, h4, ?_, ?_, ?_, ?_⟩
  · intro v
    rw [h4]
    exact regexSearch_attr_eq_some tvgLogoKey info v
  · rw [h4]
    exact regexSearch_attr_eq_none tvgLogoKey info
  · intro v hv
    rw [h4]
    show channelCategory info = v
    rw [channelCategory, (regexSearch_attr_eq_some groupTitleKey info v).mpr hv]
  · intro hn
    rw [h4]
    show channelCategory info = _
    rw [channelCategory, (regexSearch_attr_eq_none groupTitleKey info).mpr hn]

/-- C10 at the specification's example: the one record of the parse result. -/
theorem parseM3U_logo_category_witness :
    (⟨1, "Name".toList, "http://x".toList, some "L".toList, "G".toList⟩ : Channel) ∈
        parseM3U "#EXTINF:-1 tvg-logo=\"L\" group-title=\"G\",Name\nhttp://x".toList ∧
    ((∃ pre info urlLine post k,
      splitLines "#EXTINF:-1 tvg-logo=\"L\" group-title=\"G\",Name\nhttp://x".toList
        = pre ++ info :: urlLine :: post ∧
      startsWith info extinfMarker = true ∧ usableUrlLine urlLine = true ∧
      (⟨1, "Name".toList, "http://x".toList, some "L".toList, "G".toList⟩ : Channel)
        = mkChannel k info urlLine ∧
      (∀ v, (⟨1, "Name".toList, "http://x".toList, some "L".toList, "G".toList⟩ : Channel).logo
        = some v ↔ FirstAttr tvgLogoKey info v) ∧
      ((⟨1, "Name".toList, "http://x".toList, some "L".toList, "G".toList⟩ : Channel).logo
        = none ↔ ¬ HasAttr tvgLogoKey info) ∧
      (∀ v, FirstAttr groupTitleKey info v →
        (⟨1, "Name".toList, "http://x".toList, some "L".toList, "G".toList⟩ : Channel).category
          = v) ∧
      (¬ HasAttr groupTitleKey info →
        (⟨1, "Name".toList, "http://x".toList, some "L".toList, "G".toList⟩ : Channel).category
          = "Uncategorized".toList)) ∧
    parseM3U "#EXTINF:-1 tvg-logo=\"L\" group-title=\"G\",Name\nhttp://x".toList =
      [⟨1, "Name".toList, "http://x".toList, some "L".toList, "G".toList⟩]) :=
  ⟨by decide, parseM3U_logo_category _ _ (by decide)⟩


/-! ## Navigation: the index arithmetic and one command step -/

/-- The index that `handleChannelSelect` stores for the record at position `j` is
a position not after `j`. -/
theorem findIndex_url_le (l : List Channel) (j : Nat) (hj : j < l.length) :
    ∃ k : Nat, k ≤ j ∧ findIndex (fun c => c.url == l[j].url) l = (k : Int) := by
  have hle : l.findIdx (fun c => c.url == l[j].url) ≤ j := by
    by_contra hlt
    have := List.not_of_lt_findIdx (Nat.lt_of_not_le hlt)
    simp at this
  refine ⟨_, hle, ?_⟩
  unfold findIndex
  rw [if_pos (by omega)]

/-- With pairwise distinct urls the stored index is the position itself. -/
theorem findIndex_url_of_nodup (l : List Channel) (hn : (l.map Channel.url).Nodup)
    (j : Nat) (hj : j < l.length) :
    findIndex (fun c => c.url == l[j].url) l = (j : Int) := by
  have hidx : l.findIdx (fun c => c.url == l[j].url) = j := by
    rw [List.findIdx_eq hj]
    refine ⟨by simp, ?_⟩
    intro k hk
    have hk1 : k < (l.map Channel.url).length := by simp; omega
    have hj1 : j < (l.map Channel.url).length := by simp; omega
    have hne : (l.map Channel.url)[k] ≠ (l.map Channel.url)[j] := by
      intro e
      have := (hn.getElem_inj_iff).mp e
      omega
    simpa using hne
  unfold findIndex
  rw [hidx, if_pos hj]

/-- The index read by `next` is inside the list, from every current index that is
at least `-1`. -/
theorem nextIndex_bounds (i n : Int) (hi : -1 ≤ i) (hn : 0 < n) :
    0 ≤ nextIndex i n ∧ nextIndex i n < n :=
  ⟨Int.tmod_nonneg _ (by omega), Int.tmod_lt_of_pos _ hn⟩

/-- The index read by `prev` is inside the list, from every current index that is
at least `-1`. -/
theorem prevIndex_bounds (i n : Int) (hi : -1 ≤ i) (hn : 0 < n) :
    0 ≤ prevIndex i n ∧ prevIndex i n < n := by
  refine ⟨?_, Int.tmod_lt_of_pos _ hn⟩
  unfold prevIndex
  by_cases h : 0 ≤ i - 1 + n
  · exact Int.tmod_nonneg _ h
  · have h1 : n = 1 := by omega
    subst h1
    rw [Int.tmod_one]

/-- Selecting the record at a position inside the list. -/
theorem handleChannelSelect_at (s out : AppState) (j : Nat)
    (hj : j < s.filteredPlaylistChannels.length) :
    handleChannelSelect s (jsIndex s.filteredPlaylistChannels (j : Int)) out =
      some { out with
        selectedChannel := some s.filteredPlaylistChannels[j]
        view := View.player
        currentChannelIndex :=
          findIndex (fun c => c.url == s.filteredPlaylistChannels[j].url)
            s.filteredPlaylistChannels } := by
  have : jsIndex s.filteredPlaylistChannels (j : Int) = some s.filteredPlaylistChannels[j] := by
    unfold jsIndex
    rw [if_pos (by omega)]
    simp [List.getElem?_eq_getElem hj]
  rw [this]
  rfl

/-- One `next` step, when the index it reads is the position `j`. -/
theorem submit_next (toLowerCase : Str → Str) (text : Str) (s : AppState)
    (hcmd : toLowerCase (trim text) = "next".toList) (j : Nat)
    (hj : j < s.filteredPlaylistChannels.length)
    (hidx : nextIndex s.currentChannelIndex s.filteredPlaylistChannels.length = (j : Int)) :
    submit toLowerCase text s =
      some { s with
        command := []
        selectedChannel := some s.filteredPlaylistChannels[j]
        view := View.player
        currentChannelIndex :=
          findIndex (fun c => c.url == s.filteredPlaylistChannels[j].url)
            s.filteredPlaylistChannels } := by
  have hpos : (s.filteredPlaylistChannels.length : Int) > 0 := by omega
  simp only [submit, handleCommand, if_true, hcmd, hpos, hidx]
  exact handleChannelSelect_at { s with command := text } { s with command := [] } j hj

/-- One `prev` or `previous` step, when the index it reads is the position `j`. -/
theorem submit_prev (toLowerCase : Str → Str) (text : Str) (s : AppState)
    (hcmd : toLowerCase (trim text) = "prev".toList ∨
      toLowerCase (trim text) = "previous".toList) (j : Nat)
    (hj : j < s.filteredPlaylistChannels.length)
    (hidx : prevIndex s.currentChannelIndex s.filteredPlaylistChannels.length = (j : Int)) :
    submit toLowerCase text s =
      some { s with
        command := []
        selectedChannel := some s.filteredPlaylistChannels[j]
        view := View.player
        currentChannelIndex :=
          findIndex (fun c => c.url == s.filteredPlaylistChannels[j].url)
            s.filteredPlaylistChannels } := by
  have hpos : (s.filteredPlaylistChannels.length : Int) > 0 := by omega
  have hnn : toLowerCase (trim text) ≠ "next".toList := by
    rcases hcmd with h | h <;> rw [h] <;> decide
  simp only [submit, handleCommand, if_true, hcmd, hpos, hidx, hnn, if_false]
  exact handleChannelSelect_at { s with command := text } { s with command := [] } j hj

/-- One `next` step over a list with pairwise distinct urls, from a position `i`
inside the list: the record at `(i + 1) mod n` is selected and its position
stored. -/
theorem submit_next_of_distinct_urls (toLowerCase : Str → Str) (text : Str) (s : AppState)
    (i : Nat) (hcmd : toLowerCase (trim text) = "next".toList)
    (hnd : (s.filteredPlaylistChannels.map Channel.url).Nodup)
    (hi : i < s.filteredPlaylistChannels.length) (hcur : s.currentChannelIndex = (i : Int)) :
    ∃ s', submit toLowerCase text s = some s' ∧
      s'.filteredPlaylistChannels = s.filteredPlaylistChannels ∧
      s'.currentChannelIndex = (((i + 1) % s.filteredPlaylistChannels.length : Nat) : Int) ∧
      s'.selectedChannel =
        s.filteredPlaylistChannels[(i + 1) % s.filteredPlaylistChannels.length]? := by
  have hn : 0 < s.filteredPlaylistChannels.length := by omega
  have hj : (i + 1) % s.filteredPlaylistChannels.length < s.filteredPlaylistChannels.length :=
    Nat.mod_lt _ hn
  have hidx : nextIndex s.currentChannelIndex s.filteredPlaylistChannels.length =
      (((i + 1) % s.filteredPlaylistChannels.length : Nat) : Int) := by
    unfold nextIndex
    rw [hcur, Int.tmod_eq_emod (by omega) (by omega)]
    norm_cast
  have hstep := submit_next toLowerCase text s hcmd _ hj hidx
  rw [findIndex_url_of_nodup _ hnd _ hj] at hstep
  exact ⟨_, hstep, rfl, rfl, (List.getElem?_eq_getElem hj).symm⟩

/-- One `prev` or `previous` step over a list with pairwise distinct urls, from a
position `i` inside the list: the record at `(i + n - 1) mod n` is selected and
its position stored. -/
theorem submit_prev_of_distinct_urls (toLowerCase : Str → Str) (text : Str) (s : AppState)
    (i : Nat) (hcmd : toLowerCase (trim text) = "prev".toList ∨
      toLowerCase (trim text) = "previous".toList)
    (hnd : (s.filteredPlaylistChannels.map Channel.url).Nodup)
    (hi : i < s.filteredPlaylistChannels.length) (hcur : s.currentChannelIndex = (i : Int)) :
    ∃ s', submit toLowerCase text s = some s' ∧
      s'.filteredPlaylistChannels = s.filteredPlaylistChannels ∧
      s'.currentChannelIndex =
        (((i + s.filteredPlaylistChannels.length - 1) % s.filteredPlaylistChannels.length : Nat)
          : Int) ∧
      s'.selectedChannel =
        s.filteredPlaylistChannels[
          (i + s.filteredPlaylistChannels.length - 1) % s.filteredPlaylistChannels.length]? := by
  have hn : 0 < s.filteredPlaylistChannels.length := by omega
  have hj : (i + s.filteredPlaylistChannels.length - 1) % s.filteredPlaylistChannels.length
      < s.filteredPlaylistChannels.length := Nat.mod_lt _ hn
  have hidx : prevIndex s.currentChannelIndex s.filteredPlaylistChannels.length =
      (((i + s.filteredPlaylistChannels.length - 1) % s.filteredPlaylistChannels.length : Nat)
        : Int) := by
    unfold prevIndex
    rw [hcur, Int.tmod_eq_emod (by omega) (by omega)]
    have : (i : Int) - 1 + (s.filteredPlaylistChannels.length : Int)
        = ((i + s.filteredPlaylistChannels.length - 1 : Nat) : Int) := by omega
    rw [this]
    norm_cast
  have hstep := submit_prev toLowerCase text s hcmd _ hj hidx
  rw [findIndex_url_of_nodup _ hnd _ hj] at hstep
  exact ⟨_, hstep, rfl, rfl, (List.getElem?_eq_getElem hj).symm⟩

/-- Repeating `next` over a list with pairwise distinct urls: after `k` steps from
position `i` the index is `(i + k) mod n` and the list is the same. -/
theorem submitTimes_next (toLowerCase : Str → Str) (text : Str)
    (hcmd : toLowerCase (trim text) = "next".toList) (k : Nat) :
    ∀ (s : AppState) (i : Nat),
      (s.filteredPlaylistChannels.map Channel.url).Nodup →
      i < s.filteredPlaylistChannels.length → s.currentChannelIndex = (i : Int) →
      ∃ s', submitTimes toLowerCase text k s = some s' ∧
        s'.filteredPlaylistChannels = s.filteredPlaylistChannels ∧
        s'.currentChannelIndex = (((i + k) % s.filteredPlaylistChannels.length : Nat) : Int) := by
  induction k with
  | zero =>
    intro s i _ hi hcur
    exact ⟨s, rfl, rfl, by rw [hcur, Nat.add_zero, Nat.mod_eq_of_lt hi]⟩
  | succ k ih =>
    intro s i hnd hi hcur
    have hn : 0 < s.filteredPlaylistChannels.length := by omega
    obtain ⟨s1, hs1, hf1, hc1, -⟩ :=
      submit_next_of_distinct_urls toLowerCase text s i hcmd hnd hi hcur
    obtain ⟨s', h1, h2, h3⟩ := ih s1 ((i + 1) % s.filteredPlaylistChannels.length)
      (by rw [hf1]; exact hnd) (by rw [hf1]; exact Nat.mod_lt _ hn) hc1
    refine ⟨s', ?_, h2.trans hf1, ?_⟩
    · simp only [submitTimes, hs1]
      exact h1
    · rw [h3, hf1]
      simp only [Nat.mod_add_mod]
      congr 2
      omega

/-- C3, against the claim: over a three-element list whose first two records share
a url, three `next` commands from index 1 end at index 0. -/
theorem next_not_cyclic_with_duplicate_urls :
    (submitTimes toLowerCaseAscii "next".toList duplicateUrlList.length
        (sampleState duplicateUrlList 1)).map AppState.currentChannelIndex = some 0 ∧
    ¬ (∀ (l : List Channel) (i : Nat), l ≠ [] → i < l.length →
        (submitTimes toLowerCaseAscii "next".toList l.length
          (sampleState l i)).map AppState.currentChannelIndex = some (i : Int)) := by
  refine ⟨by decide, ?_⟩
  intro h
  have := h duplicateUrlList 1 (by decide) (by decide)
  revert this
  decide

/-- C3, amended: over a list of length `n` with pairwise distinct urls, from every
index `i` with `0 ≤ i < n` (so the list is non-empty), submitting a text whose trimmed lower-case
form is `next` `n` times in succession returns a state and leaves
`currentChannelIndex` equal to `i`. -/
theorem next_cyclic_of_distinct_urls (toLowerCase : Str → Str) (text : Str) (s : AppState)
    (i : Nat) (hcmd : toLowerCase (trim text) = "next".toList)
    (hnd : (s.filteredPlaylistChannels.map Channel.url).Nodup)
    (hi : i < s.filteredPlaylistChannels.length) (hcur : s.currentChannelIndex = (i : Int)) :
    ∃ s', submitTimes toLowerCase text s.filteredPlaylistChannels.length s = some s' ∧
      s'.currentChannelIndex = (i : Int) := by
  obtain ⟨s', h1, -, h3⟩ :=
    submitTimes_next toLowerCase text hcmd s.filteredPlaylistChannels.length s i hnd hi hcur
  refine ⟨s', h1, ?_⟩
  rw [h3, Nat.add_mod_right, Nat.mod_eq_of_lt hi]

/-- C3 amended, at three channels with distinct urls, from index 1, with the
command typed as ` NEXT `. -/
theorem next_cyclic_of_distinct_urls_witness :
    ∃ s', submitTimes toLowerCaseAscii " NEXT ".toList
        (sampleState distinctUrlList 1).filteredPlaylistChannels.length
        (sampleState distinctUrlList 1) = some s' ∧
      s'.currentChannelIndex = ((1 : Nat) : Int) :=
  next_cyclic_of_distinct_urls toLowerCaseAscii " NEXT ".toList (sampleState distinctUrlList 1) 1
    (by decide) (by decide) (by decide) (by decide)

/-- C4, against the claim: over a two-element list whose records share a url,
`next` then `prev` from index 1 ends at index 0. -/
theorem prev_not_inverse_with_duplicate_urls :
    ((submit toLowerCaseAscii "next".toList
        (sampleState [sampleChannel 1 "a" "http://u", sampleChannel 2 "b" "http://u"] 1)).bind
      (submit toLowerCaseAscii "prev".toList)).map AppState.currentChannelIndex = some 0 ∧
    (sampleState [sampleChannel 1 "a" "http://u", sampleChannel 2 "b" "http://u"]
      1).currentChannelIndex = 1 := by
  decide

/-- C4, amended: over a list of length `n` with pairwise distinct urls, from every
index `i` with `0 ≤ i < n` (so the list is non-empty), `next` followed by `prev` or `previous` returns a state
and leaves `currentChannelIndex` equal to `i`. -/
theorem prev_inverse_of_next_of_distinct_urls (toLowerCase : Str → Str) (textNext textPrev : Str)
    (s : AppState) (i : Nat) (hnext : toLowerCase (trim textNext) = "next".toList)
    (hprev : toLowerCase (trim textPrev) = "prev".toList ∨
      toLowerCase (trim textPrev) = "previous".toList)
    (hnd : (s.filteredPlaylistChannels.map Channel.url).Nodup)
    (hi : i < s.filteredPlaylistChannels.length) (hcur : s.currentChannelIndex = (i : Int)) :
    ∃ s1 s2, submit toLowerCase textNext s = some s1 ∧
      submit toLowerCase textPrev s1 = some s2 ∧ s2.currentChannelIndex = (i : Int) := by
  have hn : 0 < s.filteredPlaylistChannels.length := by omega
  obtain ⟨s1, hs1, hf1, hc1, -⟩ :=
    submit_next_of_distinct_urls toLowerCase textNext s i hnext hnd hi hcur
  obtain ⟨s2, hs2, -, hc2, -⟩ :=
    submit_prev_of_distinct_urls toLowerCase textPrev s1
      ((i + 1) % s.filteredPlaylistChannels.length) hprev
      (by rw [hf1]; exact hnd) (by rw [hf1]; exact Nat.mod_lt _ hn) hc1
  refine ⟨s1, s2, hs1, hs2, ?_⟩
  rw [hc2, hf1]
  congr 1
  by_cases hlast : i + 1 < s.filteredPlaylistChannels.length
  · rw [Nat.mod_eq_of_lt hlast]
    have : i + 1 + s.filteredPlaylistChannels.length - 1
        = i + s.filteredPlaylistChannels.length := by omega
    rw [this, Nat.add_mod_right, Nat.mod_eq_of_lt hi]
  · have hlen : i + 1 = s.filteredPlaylistChannels.length := by omega
    rw [← hlen, Nat.mod_self]
    have : 0 + (i + 1) - 1 = i := by omega
    rw [this, Nat.mod_eq_of_lt (by omega)]

/-- C4 amended, at three channels with distinct urls, from the last index (where
`next` wraps to 0 and `previous` wraps back). -/
theorem prev_inverse_of_next_of_distinct_urls_witness :
    ∃ s1 s2, submit toLowerCaseAscii "next".toList (sampleState distinctUrlList 2) = some s1 ∧
      submit toLowerCaseAscii "Previous".toList s1 = some s2 ∧
      s2.currentChannelIndex = ((2 : Nat) : Int) :=
  prev_inverse_of_next_of_distinct_urls toLowerCaseAscii "next".toList "Previous".toList
    (sampleState distinctUrlList 2) 2 (by decide) (by decide) (by decide) (by decide)
    (by decide)


/-- One `next`, `prev` or `previous` step from any current index that is at least
`-1`, over a non-empty list: the index read is a position `j` of the list, the
record there is selected, and the stored index is a position not after `j`. -/
theorem submit_nav_in_bounds (toLowerCase : Str → Str) (text : Str) (s : AppState)
    (hcmd : toLowerCase (trim text) = "next".toList ∨
      toLowerCase (trim text) = "prev".toList ∨ toLowerCase (trim text) = "previous".toList)
    (hne : s.filteredPlaylistChannels ≠ []) (hcur : -1 ≤ s.currentChannelIndex) :
    ∃ (j k : Nat) (ch : Channel) (s' : AppState),
      j < s.filteredPlaylistChannels.length ∧ k ≤ j ∧
      (toLowerCase (trim text) = "next".toList →
        nextIndex s.currentChannelIndex s.filteredPlaylistChannels.length = (j : Int)) ∧
      (toLowerCase (trim text) ≠ "next".toList →
        prevIndex s.currentChannelIndex s.filteredPlaylistChannels.length = (j : Int)) ∧
      jsIndex s.filteredPlaylistChannels (j : Int) = some ch ∧
      s.filteredPlaylistChannels[j]? = some ch ∧
      submit toLowerCase text s = some s' ∧
      s'.selectedChannel = some ch ∧ s'.currentChannelIndex = (k : Int) ∧
      s'.filteredPlaylistChannels = s.filteredPlaylistChannels ∧
      s'.view = View.player ∧ s'.command = [] := by
  have hn : (0 : Int) < (s.filteredPlaylistChannels.length : Int) := by
    have := List.length_pos.mpr hne
    omega
  by_cases hnext : toLowerCase (trim text) = "next".toList
  · obtain ⟨hb1, hb2⟩ := nextIndex_bounds s.currentChannelIndex _ hcur hn
    obtain ⟨j, hj⟩ := Int.eq_ofNat_of_zero_le hb1
    have hjlt : j < s.filteredPlaylistChannels.length := by omega
    obtain ⟨k, hk, hfi⟩ := findIndex_url_le s.filteredPlaylistChannels j hjlt
    have hstep := submit_next toLowerCase text s hnext j hjlt hj
    rw [hfi] at hstep
    refine ⟨j, k, s.filteredPlaylistChannels[j], _, hjlt, hk, fun _ => hj,
      fun h => absurd hnext h, ?_, List.getElem?_eq_getElem hjlt, hstep, rfl, rfl, rfl, rfl, rfl⟩
    unfold jsIndex
    rw [if_pos (by omega)]
    simp [List.getElem?_eq_getElem hjlt]
  · have hprev : toLowerCase (trim text) = "prev".toList ∨
        toLowerCase (trim text) = "previous".toList := by
      rcases hcmd with h | h
      · exact absurd h hnext
      · exact h
    obtain ⟨hb1, hb2⟩ := prevIndex_bounds s.currentChannelIndex _ hcur hn
    obtain ⟨j, hj⟩ := Int.eq_ofNat_of_zero_le hb1
    have hjlt : j < s.filteredPlaylistChannels.length := by omega
    obtain ⟨k, hk, hfi⟩ := findIndex_url_le s.filteredPlaylistChannels j hjlt
    have hstep := submit_prev toLowerCase text s hprev j hjlt hj
    rw [hfi] at hstep
    refine ⟨j, k, s.filteredPlaylistChannels[j], _, hjlt, hk, fun h => absurd h hnext,
      fun _ => hj, ?_, List.getElem?_eq_getElem hjlt, hstep, rfl, rfl, rfl, rfl, rfl⟩
    unfold jsIndex
    rw [if_pos (by omega)]
    simp [List.getElem?_eq_getElem hjlt]

/-- C5, against the claim: over three channels with distinct urls, `prev` from the
index `-1` leaves the index 1, which is not the last index 2. -/
theorem prev_from_none_not_last :
    (sampleState distinctUrlList (-1)).currentChannelIndex = -1 ∧
    (submit toLowerCaseAscii "prev".toList
      (sampleState distinctUrlList (-1))).map AppState.currentChannelIndex = some 1 ∧
    ((distinctUrlList.length : Int) - 1) = 2 := by
  decide

/-- C5, amended: over a non-empty list of length `n`, from `currentChannelIndex = -1`,
`next` selects the first record and leaves the index 0; `prev` (or `previous`)
selects the record at position `n - 2` (position 0 when `n = 1`) and leaves an
index not after that position, equal to it when the urls are pairwise
distinct. -/
theorem nav_from_none (toLowerCase : Str → Str) (textNext textPrev : Str) (s : AppState)
    (hnext : toLowerCase (trim textNext) = "next".toList)
    (hprev : toLowerCase (trim textPrev) = "prev".toList ∨
      toLowerCase (trim textPrev) = "previous".toList)
    (hne : s.filteredPlaylistChannels ≠ []) (hcur : s.currentChannelIndex = -1) :
    (∃ s', submit toLowerCase textNext s = some s' ∧ s'.currentChannelIndex = 0 ∧
      s'.selectedChannel = s.filteredPlaylistChannels[0]?) ∧
    (∃ s' j, (j + 2 = s.filteredPlaylistChannels.length ∨
        (s.filteredPlaylistChannels.length = 1 ∧ j = 0)) ∧
      submit toLowerCase textPrev s = some s' ∧
      s'.selectedChannel = s.filteredPlaylistChannels[j]? ∧
      0 ≤ s'.currentChannelIndex ∧ s'.currentChannelIndex ≤ (j : Int) ∧
      ((s.filteredPlaylistChannels.map Channel.url).Nodup → s'.currentChannelIndex = (j : Int))) := by
  have hlen : 0 < s.filteredPlaylistChannels.length := List.length_pos.mpr hne
  constructor
  · have hidx : nextIndex s.currentChannelIndex s.filteredPlaylistChannels.length
        = ((0 : Nat) : Int) := by
      unfold nextIndex
      rw [hcur]
      simp
    have hstep := submit_next toLowerCase textNext s hnext 0 hlen hidx
    obtain ⟨k, hk, hfi⟩ := findIndex_url_le s.filteredPlaylistChannels 0 hlen
    rw [hfi] at hstep
    have hk0 : k = 0 := by omega
    subst hk0
    exact ⟨_, hstep, rfl, (List.getElem?_eq_getElem hlen).symm⟩
  · have hjlt : (if s.filteredPlaylistChannels.length = 1 then 0
        else s.filteredPlaylistChannels.length - 2) < s.filteredPlaylistChannels.length := by
      split <;> omega
    have hidx : prevIndex s.currentChannelIndex s.filteredPlaylistChannels.length
        = (((if s.filteredPlaylistChannels.length = 1 then 0
          else s.filteredPlaylistChannels.length - 2) : Nat) : Int) := by
      unfold prevIndex
      rw [hcur]
      by_cases h1 : s.filteredPlaylistChannels.length = 1
      · rw [if_pos h1, h1]
        decide
      · rw [if_neg h1, Int.tmod_eq_emod (by omega) (by omega),
          Int.emod_eq_of_lt (by omega) (by omega)]
        omega
    have hstep := submit_prev toLowerCase textPrev s hprev _ hjlt hidx
    obtain ⟨k, hk, hfi⟩ := findIndex_url_le s.filteredPlaylistChannels _ hjlt
    refine ⟨_, _, ?_, hstep, (List.getElem?_eq_getElem hjlt).symm, ?_, ?_, ?_⟩
    · split <;> omega
    · show 0 ≤ findIndex _ _
      rw [hfi]; omega
    · show findIndex _ _ ≤ _
      rw [hfi]; omega
    · intro hnd
      exact findIndex_url_of_nodup _ hnd _ hjlt

/-- C5 amended, at three channels with distinct urls. -/
theorem nav_from_none_witness :
    (∃ s', submit toLowerCaseAscii "next".toList (sampleState distinctUrlList (-1)) = some s' ∧
      s'.currentChannelIndex = 0 ∧
      s'.selectedChannel = (sampleState distinctUrlList (-1)).filteredPlaylistChannels[0]?) ∧
    (∃ s' j, (j + 2 = (sampleState distinctUrlList (-1)).filteredPlaylistChannels.length ∨
        ((sampleState distinctUrlList (-1)).filteredPlaylistChannels.length = 1 ∧ j = 0)) ∧
      submit toLowerCaseAscii "prev".toList (sampleState distinctUrlList (-1)) = some s' ∧
      s'.selectedChannel = (sampleState distinctUrlList (-1)).filteredPlaylistChannels[j]? ∧
      0 ≤ s'.currentChannelIndex ∧ s'.currentChannelIndex ≤ (j : Int) ∧
      (((sampleState distinctUrlList (-1)).filteredPlaylistChannels.map Channel.url).Nodup →
        s'.currentChannelIndex = (j : Int))) :=
  nav_from_none toLowerCaseAscii "next".toList "prev".toList (sampleState distinctUrlList (-1))
    (by decide) (by decide) (by decide) (by decide)

/-- C9: over a non-empty list of length `n`, from every `currentChannelIndex` that
is at least `-1` (also one that is `n` or more), `next`, `prev` and `previous`
read the list at an index `j` with `0 ≤ j < n`, pass the record found there to
`handleChannelSelect`, return a state, and leave `currentChannelIndex` in
`0 .. n - 1`. -/
theorem nav_never_out_of_bounds (toLowerCase : Str → Str) (text : Str) (s : AppState)
    (hcmd : toLowerCase (trim text) = "next".toList ∨
      toLowerCase (trim text) = "prev".toList ∨ toLowerCase (trim text) = "previous".toList)
    (hne : s.filteredPlaylistChannels ≠ []) (hcur : -1 ≤ s.currentChannelIndex) :
    ∃ (j : Int) (ch : Channel) (s' : AppState),
      (toLowerCase (trim text) = "next".toList →
        j = nextIndex s.currentChannelIndex s.filteredPlaylistChannels.length) ∧
      (toLowerCase (trim text) ≠ "next".toList →
        j = prevIndex s.currentChannelIndex s.filteredPlaylistChannels.length) ∧
      0 ≤ j ∧ j < s.filteredPlaylistChannels.length ∧
      jsIndex s.filteredPlaylistChannels j = some ch ∧
      submit toLowerCase text s = some s' ∧
      s'.selectedChannel = some ch ∧
      0 ≤ s'.currentChannelIndex ∧
      s'.currentChannelIndex < s.filteredPlaylistChannels.length := by
  obtain ⟨j, k, ch, s', h1, h2, h3, h4, h5, -, h7, h8, h9, -, -, -⟩ :=
    submit_nav_in_bounds toLowerCase text s hcmd hne hcur
  exact ⟨(j : Int), ch, s', fun h => (h3 h).symm, fun h => (h4 h).symm, by omega, by omega, h5,
    h7, h8, by omega, by omega⟩

/-- C9 at a stale index: the list has three records and the current index is 7. -/
theorem nav_never_out_of_bounds_witness :
    ∃ (j : Int) (ch : Channel) (s' : AppState),
      (toLowerCaseAscii (trim "prev".toList) = "next".toList →
        j = nextIndex (sampleState duplicateUrlList 7).currentChannelIndex
          (sampleState duplicateUrlList 7).filteredPlaylistChannels.length) ∧
      (toLowerCaseAscii (trim "prev".toList) ≠ "next".toList →
        j = prevIndex (sampleState duplicateUrlList 7).currentChannelIndex
          (sampleState duplicateUrlList 7).filteredPlaylistChannels.length) ∧
      0 ≤ j ∧ j < (sampleState duplicateUrlList 7).filteredPlaylistChannels.length ∧
      jsIndex (sampleState duplicateUrlList 7).filteredPlaylistChannels j = some ch ∧
      submit toLowerCaseAscii "prev".toList (sampleState duplicateUrlList 7) = some s' ∧
      s'.selectedChannel = some ch ∧
      0 ≤ s'.currentChannelIndex ∧
      s'.currentChannelIndex < (sampleState duplicateUrlList 7).filteredPlaylistChannels.length :=
  nav_never_out_of_bounds toLowerCaseAscii "prev".toList (sampleState duplicateUrlList 7)
    (by decide) (by decide) (by decide)

/-! ## Commands outside the vocabulary -/

/-- On a non-empty text made of decimal digits only, `parseInt` returns the value
of the whole text. -/
theorem parseInt10_of_digits (cmd : Str) (hne : cmd ≠ [])
    (hd : ∀ d ∈ cmd, isDecimalDigit d = true) :
    parseInt10 cmd = some (digitsValue cmd : Int) := by
  cases cmd with
  | nil => exact absurd rfl hne
  | cons c r =>
    have hc : isDecimalDigit c = true := hd c (List.mem_cons_self _ _)
    have hc' : 48 ≤ c.toNat ∧ c.toNat ≤ 57 := by
      simpa [isDecimalDigit] using hc
    have htrim : isTrimChar c = false := by
      simp only [isTrimChar, isWhiteSpace, isLineTerminator, Bool.or_eq_false_iff,
        beq_eq_false_iff_ne, Bool.and_eq_false_imp, decide_eq_true_eq, decide_eq_false_iff_not]
      omega
    have hminus : c ≠ '-' := by
      intro h
      subst h
      revert hc
      decide
    have hplus : c ≠ '+' := by
      intro h
      subst h
      revert hc
      decide
    have htake : (c :: r).takeWhile isDecimalDigit = c :: r := by
      rw [List.takeWhile_eq_self_iff]
      exact hd
    simp [parseInt10, List.dropWhile, htrim, hminus, hplus, htake]

/-- C6, against the claim: `2abc` is no command word and does not consist of
digits only, yet over three channels it selects channel 2: the index goes from 0
to 1 and the view becomes the player. -/
theorem digits_then_letters_selects :
    toLowerCaseAscii (trim "2abc".toList) = "2abc".toList ∧
    "2abc".toList ∉ commandWords ∧
    isChannelNumeral distinctUrlList.length "2abc".toList = false ∧
    (sampleState distinctUrlList 0).currentChannelIndex = 0 ∧
    (submit toLowerCaseAscii "2abc".toList
      (sampleState distinctUrlList 0)).map AppState.currentChannelIndex = some 1 ∧
    (submit toLowerCaseAscii "2abc".toList (sampleState distinctUrlList 0)).map
      AppState.selectedChannel = some (some (sampleChannel 2 "b" "http://v")) := by
  decide

/-- C6, amended: when the trimmed, lower-cased text is none of the command words
and `parseInt` reads from it no number `k` with `1 ≤ k ≤ n` (it reads none, or one
that is zero, negative or above `n`), `handleCommand` returns the state unchanged
except for the emptied command buffer.  On a text of digits only `parseInt` reads
the value of the whole text. -/
theorem unrecognized_command_noop (toLowerCase : Str → Str) (text : Str) (s : AppState)
    (hw : toLowerCase (trim text) ∉ commandWords)
    (hnum : ∀ k, parseInt10 (toLowerCase (trim text)) = some k →
      k ≤ 0 ∨ (s.filteredPlaylistChannels.length : Int) < k) :
    submit toLowerCase text s = some { s with command := [] } ∧
    (∀ cmd : Str, cmd ≠ [] → (∀ d ∈ cmd, isDecimalDigit d = true) →
      parseInt10 cmd = some (digitsValue cmd : Int)) := by
  refine ⟨?_, parseInt10_of_digits⟩
  simp only [commandWords, List.mem_cons, List.mem_singleton, List.not_mem_nil, or_false,
    not_or] at hw
  obtain ⟨h1, h2, h3, h4, h5, h6, h7⟩ := hw
  simp only [submit, handleCommand, if_true, h1, h2, h3, h4, h5, h6, h7, if_false, or_self]
  cases hp : parseInt10 (toLowerCase (trim text)) with
  | none => rfl
  | some k =>
    have := hnum k hp
    have hcond : ¬ (k > 0 ∧ k ≤ (s.filteredPlaylistChannels.length : Int)) := by omega
    simp only [hcond, if_false]

/-- C6 amended, at the numeral `4` over three channels. -/
theorem unrecognized_command_noop_witness :
    submit toLowerCaseAscii " 4 ".toList (sampleState distinctUrlList 0) =
      some { sampleState distinctUrlList 0 with command := [] } ∧
    (∀ cmd : Str, cmd ≠ [] → (∀ d ∈ cmd, isDecimalDigit d = true) →
      parseInt10 cmd = some (digitsValue cmd : Int)) :=
  unrecognized_command_noop toLowerCaseAscii " 4 ".toList (sampleState distinctUrlList 0)
    (by decide) (by decide)


/-! ## The playlist search filter -/

/-- The function `includes` decides the substring relation. -/
theorem includes_iff (s t : Str) : includes s t = true ↔ t <:+: s := by
  induction s with
  | nil =>
    simp only [includes, List.isPrefixOf_iff_prefix, List.prefix_nil, List.infix_nil]
  | cons c s ih =>
    simp only [includes, Bool.or_eq_true, List.isPrefixOf_iff_prefix, ih]
    exact List.infix_cons_iff.symm

/-- C8: in the playlist view the filter effect sets the active list to exactly
the records of the parsed list, in their order, whose lower-cased name or
lower-cased category contains the lower-cased term as a substring; an empty term
gives the parsed list unchanged; the result is a sublist of the parsed list; and
a term that lower-cases to the same text as a record's category (such as `SPORT`
for the category `sport`) keeps that record.  In the other views the effect
writes nothing. -/
theorem playlistFilter_exact (toLowerCase : Str → Str) (s : AppState) :
    (s.view = View.playlist →
      (s.playlistSearchTerm ≠ [] →
        (playlistFilterEffect toLowerCase s).filteredPlaylistChannels =
          s.playlistChannels.filter (fun channel =>
            decide (toLowerCase s.playlistSearchTerm <:+: toLowerCase channel.name ∨
              toLowerCase s.playlistSearchTerm <:+: toLowerCase channel.category))) ∧
      (s.playlistSearchTerm = [] →
        (playlistFilterEffect toLowerCase s).filteredPlaylistChannels = s.playlistChannels) ∧
      (playlistFilterEffect toLowerCase s).filteredPlaylistChannels.Sublist s.playlistChannels ∧
      (∀ channel ∈ s.playlistChannels,
        s.playlistSearchTerm = "SPORT".toList → channel.category = "sport".toList →
        toLowerCase "SPORT".toList = toLowerCase "sport".toList →
        channel ∈ (playlistFilterEffect toLowerCase s).filteredPlaylistChannels)) ∧
    (s.view ≠ View.playlist → playlistFilterEffect toLowerCase s = s) := by
  refine ⟨fun hview => ?_, fun hview => by simp [playlistFilterEffect, hview]⟩
  have hfilter : s.playlistSearchTerm ≠ [] →
      (playlistFilterEffect toLowerCase s).filteredPlaylistChannels =
        s.playlistChannels.filter (fun channel =>
          decide (toLowerCase s.playlistSearchTerm <:+: toLowerCase channel.name ∨
            toLowerCase s.playlistSearchTerm <:+: toLowerCase channel.category)) := by
    intro hterm
    simp only [playlistFilterEffect, hterm, hview, ne_eq, not_false_eq_true, and_self, if_true]
    apply List.filter_congr
    intro channel _
    simp only [matchesSearch, Bool.or_eq_true, includes_iff, Bool.decide_or]
    rw [Bool.eq_iff_iff]
    simp only [Bool.or_eq_true, includes_iff, decide_eq_true_eq]
  have hempty : s.playlistSearchTerm = [] →
      (playlistFilterEffect toLowerCase s).filteredPlaylistChannels = s.playlistChannels := by
    intro hterm
    simp [playlistFilterEffect, hterm, hview]
  refine ⟨hfilter, hempty, ?_, ?_⟩
  · by_cases hterm : s.playlistSearchTerm = []
    · rw [hempty hterm]
    · rw [hfilter hterm]
      exact List.filter_sublist _
  · intro channel hmem hterm hcat hlow
    have hne : s.playlistSearchTerm ≠ [] := by rw [hterm]; decide
    rw [hfilter hne, List.mem_filter]
    refine ⟨hmem, ?_⟩
    rw [decide_eq_true_eq, hterm, hcat, hlow]
    exact Or.inr List.infix_rfl

/-- C8 at a parsed list of three channels with the term `SPORT`, in the playlist
view: the effect keeps the first record (category `sport`) and the third (name
`Sports One`), in order. -/
theorem playlistFilter_exact_witness :
    sportSampleState.view = View.playlist ∧
    ((sportSampleState.playlistSearchTerm ≠ [] →
      (playlistFilterEffect toLowerCaseAscii sportSampleState).filteredPlaylistChannels =
        sportSampleState.playlistChannels.filter (fun channel =>
          decide (toLowerCaseAscii sportSampleState.playlistSearchTerm
              <:+: toLowerCaseAscii channel.name ∨
            toLowerCaseAscii sportSampleState.playlistSearchTerm
              <:+: toLowerCaseAscii channel.category))) ∧
    (sportSampleState.playlistSearchTerm = [] →
      (playlistFilterEffect toLowerCaseAscii sportSampleState).filteredPlaylistChannels =
        sportSampleState.playlistChannels) ∧
    (playlistFilterEffect toLowerCaseAscii sportSampleState).filteredPlaylistChannels.Sublist
      sportSampleState.playlistChannels ∧
    (∀ channel ∈ sportSampleState.playlistChannels,
      sportSampleState.playlistSearchTerm = "SPORT".toList →
      channel.category = "sport".toList →
      toLowerCaseAscii "SPORT".toList = toLowerCaseAscii "sport".toList →
      channel ∈ (playlistFilterEffect toLowerCaseAscii sportSampleState).filteredPlaylistChannels)) ∧
    sportSampleState.playlistSearchTerm = "SPORT".toList ∧
    toLowerCaseAscii "SPORT".toList = toLowerCaseAscii "sport".toList ∧
    (playlistFilterEffect toLowerCaseAscii sportSampleState).filteredPlaylistChannels =
      sportSampleList.take 1 ++ sportSampleList.drop 2 :=
  ⟨by decide, (playlistFilter_exact toLowerCaseAscii sportSampleState).1 (by decide),
    by decide, by decide, by decide⟩

/-! ## Index arithmetic with unique urls -/

/-- The element access `arr[j]` at a natural position is the list lookup. -/
theorem jsIndex_natCast (l : List Channel) (j : Nat) : jsIndex l (j : Int) = l[j]? := by
  unfold jsIndex
  rw [if_pos (by omega)]
  simp

/-- C11: over a list of length `n` with pairwise distinct urls, from every index
`i` with `0 ≤ i < n` (so the list is non-empty), `next` returns a state whose
`currentChannelIndex` is `(i + 1) mod n` and `prev` (or `previous`) one whose
`currentChannelIndex` is `(i - 1 + n) mod n`; in both cases the selected channel
is the record of the active list at that index, and the index is the one
`findIndex` gives for that record's url. -/
theorem nav_index_exact_of_distinct_urls (toLowerCase : Str → Str) (textNext textPrev : Str)
    (s : AppState) (i : Nat) (hnext : toLowerCase (trim textNext) = "next".toList)
    (hprev : toLowerCase (trim textPrev) = "prev".toList ∨
      toLowerCase (trim textPrev) = "previous".toList)
    (hnd : (s.filteredPlaylistChannels.map Channel.url).Nodup)
    (hi : i < s.filteredPlaylistChannels.length) (hcur : s.currentChannelIndex = (i : Int)) :
    (∃ s' ch, submit toLowerCase textNext s = some s' ∧
      s'.currentChannelIndex = ((i : Int) + 1) % (s.filteredPlaylistChannels.length : Int) ∧
      jsIndex s.filteredPlaylistChannels s'.currentChannelIndex = some ch ∧
      s'.selectedChannel = some ch ∧
      s'.currentChannelIndex =
        findIndex (fun c => c.url == ch.url) s.filteredPlaylistChannels) ∧
    (∃ s' ch, submit toLowerCase textPrev s = some s' ∧
      s'.currentChannelIndex =
        ((i : Int) - 1 + (s.filteredPlaylistChannels.length : Int)) %
          (s.filteredPlaylistChannels.length : Int) ∧
      jsIndex s.filteredPlaylistChannels s'.currentChannelIndex = some ch ∧
      s'.selectedChannel = some ch ∧
      s'.currentChannelIndex =
        findIndex (fun c => c.url == ch.url) s.filteredPlaylistChannels) := by
  have hn : 0 < s.filteredPlaylistChannels.length := by omega
  constructor
  · obtain ⟨s', h1, -, h3, h4⟩ :=
      submit_next_of_distinct_urls toLowerCase textNext s i hnext hnd hi hcur
    have hj : (i + 1) % s.filteredPlaylistChannels.length < s.filteredPlaylistChannels.length :=
      Nat.mod_lt _ hn
    refine ⟨s', s.filteredPlaylistChannels[(i + 1) % s.filteredPlaylistChannels.length], h1,
      ?_, ?_, ?_, ?_⟩
    · rw [h3]; push_cast; rfl
    · rw [h3, jsIndex_natCast, List.getElem?_eq_getElem hj]
    · rw [h4, List.getElem?_eq_getElem hj]
    · rw [h3, findIndex_url_of_nodup _ hnd _ hj]
  · obtain ⟨s', h1, -, h3, h4⟩ :=
      submit_prev_of_distinct_urls toLowerCase textPrev s i hprev hnd hi hcur
    have hj : (i + s.filteredPlaylistChannels.length - 1) % s.filteredPlaylistChannels.length
        < s.filteredPlaylistChannels.length := Nat.mod_lt _ hn
    refine ⟨s', s.filteredPlaylistChannels[
      (i + s.filteredPlaylistChannels.length - 1) % s.filteredPlaylistChannels.length], h1,
      ?_, ?_, ?_, ?_⟩
    · rw [h3, Int.natCast_mod]
      congr 1
      omega
    · rw [h3, jsIndex_natCast, List.getElem?_eq_getElem hj]
    · rw [h4, List.getElem?_eq_getElem hj]
    · rw [h3, findIndex_url_of_nodup _ hnd _ hj]

/-- C11 at three channels with distinct urls, from the last index: `next` wraps to
index 0 and `prev` goes to index 1. -/
theorem nav_index_exact_of_distinct_urls_witness :
    ((∃ s' ch, submit toLowerCaseAscii "next".toList (sampleState distinctUrlList 2) = some s' ∧
      s'.currentChannelIndex = (((2 : Nat) : Int) + 1) %
        ((sampleState distinctUrlList 2).filteredPlaylistChannels.length : Int) ∧
      jsIndex (sampleState distinctUrlList 2).filteredPlaylistChannels s'.currentChannelIndex
        = some ch ∧
      s'.selectedChannel = some ch ∧
      s'.currentChannelIndex =
        findIndex (fun c => c.url == ch.url)
          (sampleState distinctUrlList 2).filteredPlaylistChannels) ∧
    (∃ s' ch, submit toLowerCaseAscii "prev".toList (sampleState distinctUrlList 2) = some s' ∧
      s'.currentChannelIndex =
        (((2 : Nat) : Int) - 1 +
            ((sampleState distinctUrlList 2).filteredPlaylistChannels.length : Int)) %
          ((sampleState distinctUrlList 2).filteredPlaylistChannels.length : Int) ∧
      jsIndex (sampleState distinctUrlList 2).filteredPlaylistChannels s'.currentChannelIndex
        = some ch ∧
      s'.selectedChannel = some ch ∧
      s'.currentChannelIndex =
        findIndex (fun c => c.url == ch.url)
          (sampleState distinctUrlList 2).filteredPlaylistChannels)) ∧
    (submit toLowerCaseAscii "next".toList
      (sampleState distinctUrlList 2)).map AppState.currentChannelIndex = some 0 ∧
    (submit toLowerCaseAscii "prev".toList
      (sampleState distinctUrlList 2)).map AppState.currentChannelIndex = some 1 :=
  ⟨nav_index_exact_of_distinct_urls toLowerCaseAscii "next".toList "prev".toList
      (sampleState distinctUrlList 2) 2 (by decide) (by decide) (by decide) (by decide)
      (by decide),
    by decide, by decide⟩

end NexGen
